import Mathlib

/-!
Verification of the fork-join-scope library (files `src/scope.rs`, `src/iter.rs`,
`src/lib.rs`) via a shallow embedding in Lean.

The embedding covers:
* the static partitioning arithmetic of `Scope::iter_static`,
* the dynamic work-claiming protocol of `Scope::iter_dynamic` as an
  interleaved transition system over the shared atomic counter,
* the broadcast publish/drain handshake of `Scope::broadcast_impl` and
  `State::worker` as an interleaved transition system,
* the event ordering of `broadcast_impl` including its `ResetGuard`,
* the accumulator handling of `fold_static` / `fold_dynamic`,
* the worker-spawn loop of `scope`,
* machine-arithmetic (wrap-around) behaviour of the `iter_static` bounds.
-/

set_option maxRecDepth 8000

namespace ForkJoin

/-! ### Static partitioning (`Scope::iter_static`, iter.rs lines 8-20)

Rust source:
```
let work_per_thread = work.len().div_ceil(self.state.workers + 1);
self.broadcast(|thread| \x7b
    let start = work.start + work_per_thread * thread;
    let end = work.end.min(start + work_per_thread);
    f(thread, start..end);
\x7d);
```
-/

/-- `usize::div_ceil(len, p)` as Rust defines it: `len / p` plus one when the
remainder is nonzero.  (Rust's implementation never overflows.) -/
def divCeil (len p : Nat) : Nat :=
  len / p + (if len % p = 0 then 0 else 1)

/-- The `work_per_thread` value computed by `iter_static` for range
`[start, endd)` and `wc` background workers. -/
def workPerThread (start endd wc : Nat) : Nat :=
  divCeil (endd - start) (wc + 1)

/-- `start` of the subrange assigned to participant `i` by `iter_static`. -/
def staticStart (start endd wc i : Nat) : Nat :=
  start + workPerThread start endd wc * i

/-- `end` of the subrange assigned to participant `i` by `iter_static`:
`work.end.min(start + work_per_thread)`. -/
def staticEnd (start endd wc i : Nat) : Nat :=
  min endd (staticStart start endd wc i + workPerThread start endd wc)

/-- Membership of index `x` in participant `i`'s half-open subrange. -/
def inStatic (start endd wc i x : Nat) : Prop :=
  staticStart start endd wc i ≤ x ∧ x < staticEnd start endd wc i

instance (start endd wc i x : Nat) : Decidable (inStatic start endd wc i x) := by
  unfold inStatic; exact inferInstance

/-- Ceiling division covers the whole length: `len ≤ divCeil len p * p`. -/
lemma le_divCeil_mul (len p : Nat) (hp : 0 < p) : len ≤ divCeil len p * p := by
  have h1 := Nat.mod_add_div len p
  have h2 := Nat.mod_lt len hp
  unfold divCeil
  by_cases h : len % p = 0
  · rw [if_pos h]
    have h3 : (len / p + 0) * p = p * (len / p) := by ring
    omega
  · rw [if_neg h]
    have h3 : (len / p + 1) * p = p * (len / p) + p := by ring
    omega

/-- Ceiling division of a positive length is positive. -/
lemma divCeil_pos (len p : Nat) (hl : 0 < len) (hp : 0 < p) : 0 < divCeil len p := by
  have h := le_divCeil_mul len p hp
  rcases Nat.eq_zero_or_pos (divCeil len p) with h0 | h0
  · rw [h0] at h; simp at h; omega
  · exact h0

/-- Each index of the input range lands in the subrange of some participant
`i ≤ wc`; the witness is `(x - start) / chunk`. -/
lemma inStatic_exists (start endd wc x : Nat) (hx : start ≤ x) (hx2 : x < endd) :
    ∃ i, i ≤ wc ∧ inStatic start endd wc i x := by
  set c := workPerThread start endd wc with hc
  have hlen : 0 < endd - start := by omega
  have hcpos : 0 < c := divCeil_pos _ _ hlen (Nat.succ_pos wc)
  have hcov : endd - start ≤ c * (wc + 1) := le_divCeil_mul _ _ (Nat.succ_pos wc)
  set d := x - start with hd
  refine ⟨d / c, ?_, ?_, ?_⟩
  · have hdlt : d < c * (wc + 1) := by omega
    have : d / c < wc + 1 := Nat.div_lt_of_lt_mul (by omega)
    omega
  · have h3 : c * (d / c) ≤ d := by
      rw [Nat.mul_comm]; exact Nat.div_mul_le_self d c
    simp only [staticStart, ← hc]
    omega
  · have h1 := Nat.mod_add_div d c
    have h2 := Nat.mod_lt d hcpos
    simp only [staticEnd, staticStart, ← hc, lt_min_iff]
    omega

/-- The subranges of distinct participants are disjoint. -/
lemma inStatic_disjoint (start endd wc i j x : Nat)
    (hi : inStatic start endd wc i x) (hj : inStatic start endd wc j x) : i = j := by
  rcases hi with ⟨hi1, hi2⟩
  rcases hj with ⟨hj1, hj2⟩
  simp only [staticStart, staticEnd, lt_min_iff] at hi1 hi2 hj1 hj2
  set c := workPerThread start endd wc
  by_contra hne
  rcases Nat.lt_or_ge i j with h | h
  · have h3 : c * (i + 1) ≤ c * j := Nat.mul_le_mul_left c (Nat.succ_le_of_lt h)
    have h4 : c * (i + 1) = c * i + c := by ring
    omega
  · have hj' : j < i := by omega
    have h3 : c * (j + 1) ≤ c * i := Nat.mul_le_mul_left c (Nat.succ_le_of_lt hj')
    have h4 : c * (j + 1) = c * j + c := by ring
    omega

/-- Subranges are contiguous: participant `i`'s end never exceeds
participant `i+1`'s start. -/
lemma staticEnd_le_staticStart_succ (start endd wc i : Nat) :
    staticEnd start endd wc i ≤ staticStart start endd wc (i + 1) := by
  simp only [staticEnd, staticStart]
  have : workPerThread start endd wc * i + workPerThread start endd wc
      = workPerThread start endd wc * (i + 1) := by ring
  omega

/-- Every index in a participant's subrange lies in the input range. -/
lemma inStatic_range (start endd wc i x : Nat) (h : inStatic start endd wc i x) :
    start ≤ x ∧ x < endd := by
  rcases h with ⟨h1, h2⟩
  simp only [staticStart] at h1
  simp only [staticEnd, lt_min_iff] at h2
  omega

/-- A participant whose computed start is at or past `endd` has an empty
subrange. -/
lemma inStatic_empty (start endd wc i x : Nat)
    (h : endd ≤ staticStart start endd wc i) : ¬ inStatic start endd wc i x := by
  intro ⟨h1, h2⟩
  simp only [staticEnd, lt_min_iff] at h2
  omega

/-! ### Machine (usize) arithmetic for the `iter_static` bounds

On the targeted 64-bit platform the additions and multiplication in
`start + work_per_thread * thread` and `end.min(start + work_per_thread)`
are performed in `usize` arithmetic, which wraps modulo `2^64` (release
profile).  We model the wrapped computations explicitly. -/

/-- Modulus of `usize` arithmetic on a 64-bit platform. -/
def usizeMod : Nat := 2 ^ 64

/-- `usize::MAX`. -/
def usizeMax : Nat := usizeMod - 1

/-- Wrapping `usize` addition. -/
def wrapAdd (a b : Nat) : Nat := (a + b) % usizeMod

/-- Wrapping `usize` multiplication. -/
def wrapMul (a b : Nat) : Nat := (a * b) % usizeMod

/-- `start + work_per_thread * thread` computed in machine arithmetic. -/
def staticStartM (start endd wc i : Nat) : Nat :=
  wrapAdd start (wrapMul (workPerThread start endd wc) i)

/-- `work.end.min(start + work_per_thread)` computed in machine arithmetic. -/
def staticEndM (start endd wc i : Nat) : Nat :=
  min endd (wrapAdd (staticStartM start endd wc i) (workPerThread start endd wc))

/-- Membership in participant `i`'s subrange as computed by the machine. -/
def inStaticM (start endd wc i x : Nat) : Prop :=
  staticStartM start endd wc i ≤ x ∧ x < staticEndM start endd wc i

instance (start endd wc i x : Nat) : Decidable (inStaticM start endd wc i x) := by
  unfold inStaticM; exact inferInstance

/-- Under the no-overflow precondition, the machine-computed thread start
agrees with the unbounded one for every participant `i ≤ wc + 1`. -/
lemma staticStartM_eq (start endd wc i : Nat)
    (hnof : start + workPerThread start endd wc * (wc + 1) ≤ usizeMax)
    (hi : i ≤ wc + 1) : staticStartM start endd wc i = staticStart start endd wc i := by
  set c := workPerThread start endd wc with hc
  have hmul : c * i ≤ c * (wc + 1) := Nat.mul_le_mul_left c hi
  have h1 : c * i < usizeMod := by
    have : 0 < usizeMod := by norm_num [usizeMod]
    simp only [usizeMax] at hnof
    omega
  have h2 : start + c * i < usizeMod := by
    simp only [usizeMax] at hnof
    omega
  simp only [staticStartM, staticStart, wrapAdd, wrapMul, ← hc,
    Nat.mod_eq_of_lt h1, Nat.mod_eq_of_lt h2]

/-- Under the no-overflow precondition, the machine-computed thread end agrees
with the unbounded one for every participant `i ≤ wc`. -/
lemma staticEndM_eq (start endd wc i : Nat)
    (hnof : start + workPerThread start endd wc * (wc + 1) ≤ usizeMax)
    (hi : i ≤ wc) : staticEndM start endd wc i = staticEnd start endd wc i := by
  set c := workPerThread start endd wc with hc
  have hs := staticStartM_eq start endd wc i hnof (by omega)
  have hmul : c * (i + 1) ≤ c * (wc + 1) := Nat.mul_le_mul_left c (by omega)
  have hexp : c * (i + 1) = c * i + c := by ring
  have hss : staticStart start endd wc i = start + c * i := by
    simp only [staticStart, ← hc]
  have h2 : staticStart start endd wc i + c < usizeMod := by
    have hpos : 0 < usizeMod := by norm_num [usizeMod]
    simp only [usizeMax] at hnof
    omega
  simp only [staticEndM, staticEnd, wrapAdd, ← hc, hs]
  rw [Nat.mod_eq_of_lt h2]

/--
C2: for every half-open range `[start, endd)` and worker count, with
`P = wc + 1` and `chunk = ceil(len / P)`, `iter_static` assigns thread `i`
the subrange `[start + chunk*i, min(endd, start + chunk*(i+1)))`; the `P`
computed subranges are pairwise disjoint, contiguous in index order, their
union is exactly `[start, endd)`, and a thread whose computed start is
`≥ endd` gets an empty range.
-/
theorem C2_iter_static_partition (start endd wc : Nat) :
    (∀ i, staticStart start endd wc i = start + workPerThread start endd wc * i
        ∧ staticEnd start endd wc i
            = min endd (start + workPerThread start endd wc * (i + 1)))
  ∧ (∀ i j x, inStatic start endd wc i x → inStatic start endd wc j x → i = j)
  ∧ (∀ i, staticEnd start endd wc i ≤ staticStart start endd wc (i + 1))
  ∧ (∀ x, (start ≤ x ∧ x < endd) ↔ ∃ i, i ≤ wc ∧ inStatic start endd wc i x)
  ∧ (∀ i x, endd ≤ staticStart start endd wc i → ¬ inStatic start endd wc i x) := by
  refine ⟨?_, ?_, ?_, ?_, ?_⟩
  · intro i
    refine ⟨rfl, ?_⟩
    simp only [staticEnd, staticStart]
    have : workPerThread start endd wc * i + workPerThread start endd wc
        = workPerThread start endd wc * (i + 1) := by ring
    omega
  · intro i j x hi hj
    exact inStatic_disjoint start endd wc i j x hi hj
  · intro i
    exact staticEnd_le_staticStart_succ start endd wc i
  · intro x
    constructor
    · intro ⟨h1, h2⟩
      exact inStatic_exists start endd wc x h1 h2
    · intro ⟨i, _, hx⟩
      exact inStatic_range start endd wc i x hx
  · intro i x h
    exact inStatic_empty start endd wc i x h

/-- Witness for C2 at `start = 2`, `endd = 9`, `wc = 2`: index `5` is covered
by some participant. -/
theorem C2_iter_static_partition_witness :
    ∃ i, i ≤ 2 ∧ inStatic 2 9 2 i 5 :=
  ((C2_iter_static_partition 2 9 2).2.2.2.1 5).mp (by decide)

/--
C10: whenever `start + ceil(len / (wc+1)) * (wc+1)` does not exceed
`usize::MAX`, the per-thread bound computations of `iter_static` never wrap:
the machine-arithmetic results coincide with the unbounded ones for every
participant `i ≤ wc`, and partition exactness (disjointness and exact union)
holds for the machine-computed subranges.
-/
theorem C10_iter_static_no_overflow (start endd wc : Nat)
    (hnof : start + workPerThread start endd wc * (wc + 1) ≤ usizeMax) :
    (∀ i, i ≤ wc →
        staticStartM start endd wc i = staticStart start endd wc i
      ∧ staticEndM start endd wc i = staticEnd start endd wc i)
  ∧ (∀ i j x, i ≤ wc → j ≤ wc →
        inStaticM start endd wc i x → inStaticM start endd wc j x → i = j)
  ∧ (∀ x, (start ≤ x ∧ x < endd) ↔ ∃ i, i ≤ wc ∧ inStaticM start endd wc i x) := by
  have hkey : ∀ i, i ≤ wc →
      (∀ x, inStaticM start endd wc i x ↔ inStatic start endd wc i x) := by
    intro i hi x
    unfold inStaticM inStatic
    rw [staticStartM_eq start endd wc i hnof (by omega),
      staticEndM_eq start endd wc i hnof hi]
  refine ⟨?_, ?_, ?_⟩
  · intro i hi
    exact ⟨staticStartM_eq start endd wc i hnof (by omega),
      staticEndM_eq start endd wc i hnof hi⟩
  · intro i j x hi hj hxi hxj
    exact inStatic_disjoint start endd wc i j x
      ((hkey i hi x).mp hxi) ((hkey j hj x).mp hxj)
  · intro x
    constructor
    · intro ⟨h1, h2⟩
      obtain ⟨i, hi, hx⟩ := inStatic_exists start endd wc x h1 h2
      exact ⟨i, hi, (hkey i hi x).mpr hx⟩
    · intro ⟨i, hi, hx⟩
      exact inStatic_range start endd wc i x ((hkey i hi x).mp hx)

/-- Witness for C10 at a range close to `usize::MAX`: `start = 2^64 - 10`,
`endd = 2^64 - 1`, `wc = 2` (so `chunk = 3` and `start + 3*3 = usize::MAX`);
the machine-computed bounds of participant 2 agree with the unbounded ones. -/
theorem C10_iter_static_no_overflow_witness :
    staticStartM (2^64 - 10) (2^64 - 1) 2 2 = staticStart (2^64 - 10) (2^64 - 1) 2 2
  ∧ staticEndM (2^64 - 10) (2^64 - 1) 2 2 = staticEnd (2^64 - 10) (2^64 - 1) 2 2 :=
  (C10_iter_static_no_overflow (2^64 - 10) (2^64 - 1) 2 (by decide)).1 2 (by decide)

/-! ### Dynamic partitioning (`Scope::iter_dynamic`, iter.rs lines 62-81)

Rust source:
```
let next_index = AtomicUsize::new(work.start + self.state.workers + 1);
self.broadcast(|thread| \x7b
    let mut index = work.start + thread;
    loop \x7b
        if index >= work.end \x7b return; \x7d
        f(thread, index);
        index = next_index.fetch_add(1, Ordering::Relaxed);
    \x7d
\x7d);
```
Modelled as an interleaved transition system: the loop body's only shared
interaction is the atomic `fetch_add`, so a step is one loop iteration of one
participant. -/

/-- Status of one participant in the `iter_dynamic` loop: `run idx` is inside
the loop holding claimed index `idx`, not yet compared against `work.end`;
`fin idx` has returned, `idx` being the final (rejected) claimed index. -/
inductive DThread where
  | run (idx : Nat)
  | fin (idx : Nat)
deriving DecidableEq, Repr

/-- The index a participant currently holds. -/
def DThread.heldIdx : DThread → Nat
  | .run i => i
  | .fin i => i

/-- Whether a participant has exited its loop. -/
def DThread.isFin : DThread → Bool
  | .run _ => false
  | .fin _ => true

/-- Interleaved state of one `iter_dynamic` call: the shared `next_index`
atomic (a `usize`, so always `< 2^64`: every update is taken mod `2^64`),
each participant's loop state, and the `(thread, index)` pairs passed to `f`
so far (most recent first). -/
structure DState where
  counter : Nat
  threads : List DThread
  processed : List (Nat × Nat)
deriving DecidableEq, Repr

/-- Initial state: `next_index = start + wc + 1` computed in `usize`
arithmetic, participant `t` holds its one-shot initial index `start + t`,
nothing processed yet. -/
def dInit (start wc : Nat) : DState where
  counter := (start + wc + 1) % usizeMod
  threads := (List.range (wc + 1)).map (fun t => DThread.run (start + t))
  processed := []

/-- One interleaved step of the `iter_dynamic` loop for some participant `t`:
holding `idx < endd` it calls `f(t, idx)` and then claims
`next_index.fetch_add(1, Relaxed)` — which hands out the old counter value
and stores the incremented value wrapped mod `2^64`, as `AtomicUsize`
arithmetic does in every compilation profile; holding `idx ≥ endd` it
returns. -/
inductive DStep (endd : Nat) : DState → DState → Prop where
  | process (s : DState) (t idx : Nat) :
      s.threads[t]? = some (.run idx) → idx < endd →
      DStep endd s ⟨(s.counter + 1) % usizeMod, s.threads.set t (.run s.counter),
        (t, idx) :: s.processed⟩
  | finish (s : DState) (t idx : Nat) :
      s.threads[t]? = some (.run idx) → endd ≤ idx →
      DStep endd s ⟨s.counter, s.threads.set t (.fin idx), s.processed⟩

/-- All participants have exited their loops. -/
def dDone (s : DState) : Prop := ∀ th ∈ s.threads, th.isFin = true

instance (s : DState) : Decidable (dDone s) := by
  unfold dDone; exact inferInstance

/-- The multiset of indices handed to `f` so far. -/
def procMS (s : DState) : Multiset Nat := (s.processed.map Prod.snd : List Nat)

/-- The multiset of indices currently held by the participants. -/
def thrMS (s : DState) : Multiset Nat := (s.threads.map DThread.heldIdx : List Nat)

/-- Replacing the element at position `t` of a list, viewed as a multiset:
the old element leaves, the new one enters. -/
lemma multiset_set {α : Type} (l : List α) (t : Nat) (b x : α)
    (h : l[t]? = some x) :
    ((l.set t b : List α) : Multiset α) + {x} = (l : Multiset α) + {b} := by
  induction l generalizing t with
  | nil => simp at h
  | cons a as ih =>
    cases t with
    | zero =>
      simp only [List.getElem?_cons_zero, Option.some_inj] at h
      subst h
      rw [List.set_cons_zero]
      rw [← Multiset.cons_coe, ← Multiset.cons_coe,
        ← Multiset.singleton_add, ← Multiset.singleton_add]
      abel
    | succ n =>
      simp only [List.getElem?_cons_succ] at h
      rw [List.set_cons_succ]
      rw [← Multiset.cons_coe, ← Multiset.cons_coe,
        Multiset.cons_add, Multiset.cons_add, ih n h]

/-- Invariant of the `iter_dynamic` transition system.  It holds along every
run whose inputs satisfy the no-overflow side conditions
`start + wc + 1 ≤ usizeMax` and `endd + wc + 1 ≤ usizeMax`, under which the
shared counter never wraps. -/
structure DInv (start endd wc : Nat) (s : DState) : Prop where
  len : s.threads.length = wc + 1
  counter_ge : start + wc + 1 ≤ s.counter
  counter_eq : s.counter = start + wc + 1 + s.processed.length
  split : procMS s + thrMS s = (List.range' start (s.counter - start) : List Nat)
  proc_lt : ∀ p ∈ s.processed, p.2 < endd ∧ p.1 < wc + 1
  fin_ge : ∀ th ∈ s.threads, ∀ i, th = DThread.fin i → endd ≤ i

/-- The initial state satisfies the invariant when the initial counter value
does not overflow. -/
lemma DInv_init (start endd wc : Nat) (hP1 : start + wc + 1 ≤ usizeMax) :
    DInv start endd wc (dInit start wc) := by
  have hM : 0 < usizeMod := by norm_num [usizeMod]
  simp only [usizeMax] at hP1
  have hm : (start + wc + 1) % usizeMod = start + wc + 1 :=
    Nat.mod_eq_of_lt (by omega)
  refine ⟨by simp [dInit], ?_, ?_, ?_, by simp [dInit], ?_⟩
  · show start + wc + 1 ≤ (start + wc + 1) % usizeMod
    rw [hm]
  · show (start + wc + 1) % usizeMod = start + wc + 1 + ([] : List (Nat × Nat)).length
    rw [hm]
    rfl
  · show procMS (dInit start wc) + thrMS (dInit start wc)
      = (List.range' start ((start + wc + 1) % usizeMod - start) : List Nat)
    rw [hm]
    have h1 : start + wc + 1 - start = wc + 1 := by omega
    have h2 : ((List.range (wc + 1)).map (fun t => DThread.run (start + t))).map
        DThread.heldIdx = List.range' start (wc + 1) := by
      rw [List.map_map, List.range'_eq_map_range]
      rfl
    rw [h1]
    simp only [procMS, thrMS, dInit]
    rw [h2]
    simp
  · intro th hth i hi
    simp only [dInit, List.mem_map] at hth
    obtain ⟨t, _, ht⟩ := hth
    rw [← ht] at hi
    exact absurd hi (by simp)

/-- While the invariant holds, a participant that can still process an index
keeps the incremented counter at or below `endd + wc + 1`: each processed
index is distinct and lies in `[start, endd)`, so at most `endd - start` of
the `fetch_add` increments ever happen. -/
lemma process_counter_lt (start endd wc : Nat) {s : DState}
    (inv : DInv start endd wc s) {t idx : Nat}
    (hidx : s.threads[t]? = some (.run idx)) (hlt : idx < endd) :
    s.counter + 1 ≤ endd + wc + 1 := by
  rcases le_or_lt s.counter endd with hc | hc
  · omega
  · have hmemthr : idx ∈ thrMS s := by
      simp only [thrMS, Multiset.mem_coe]
      exact List.mem_map.mpr ⟨_, List.getElem?_mem hidx, rfl⟩
    have hstartle : start ≤ idx := by
      have h2 : idx ∈ procMS s + thrMS s := Multiset.mem_add.mpr (Or.inr hmemthr)
      rw [inv.split] at h2
      exact (List.mem_range'_1.mp (Multiset.mem_coe.mp h2)).1
    have hse : start < endd := lt_of_le_of_lt hstartle hlt
    have h0 : List.range' start (endd - start)
        ++ List.range' (start + (endd - start)) (s.counter - endd)
        = List.range' start ((s.counter - endd) + (endd - start)) := by
      have h00 := List.range'_append start (endd - start) (s.counter - endd) 1
      simp only [Nat.one_mul] at h00
      exact h00
    have h1 : start + (endd - start) = endd := by omega
    have h2 : (s.counter - endd) + (endd - start) = s.counter - start := by omega
    rw [h1, h2] at h0
    have hsplitrange : ((List.range' start (s.counter - start) : List Nat)
          : Multiset Nat)
        = ((List.range' start (endd - start) : List Nat) : Multiset Nat)
          + ((List.range' endd (s.counter - endd) : List Nat) : Multiset Nat) := by
      rw [Multiset.coe_add]
      exact congrArg (fun l : List Nat => (l : Multiset Nat)) h0.symm
    have hf := congrArg (Multiset.filter (· < endd)) (inv.split.trans hsplitrange)
    rw [Multiset.filter_add, Multiset.filter_add] at hf
    have hfp : Multiset.filter (· < endd) (procMS s) = procMS s :=
      Multiset.filter_eq_self.mpr (by
        intro a ha
        simp only [procMS, Multiset.mem_coe, List.mem_map] at ha
        obtain ⟨p, hp, hpa⟩ := ha
        have := (inv.proc_lt p hp).1
        omega)
    have hfA : Multiset.filter (· < endd)
          ((List.range' start (endd - start) : List Nat) : Multiset Nat)
        = ((List.range' start (endd - start) : List Nat) : Multiset Nat) :=
      Multiset.filter_eq_self.mpr (by
        intro a ha
        have := (List.mem_range'_1.mp (Multiset.mem_coe.mp ha)).2
        omega)
    have hfB : Multiset.filter (· < endd)
          ((List.range' endd (s.counter - endd) : List Nat) : Multiset Nat)
        = 0 :=
      Multiset.filter_eq_nil.mpr (by
        intro a ha
        have := (List.mem_range'_1.mp (Multiset.mem_coe.mp ha)).1
        omega)
    rw [hfp, hfA, hfB] at hf
    have hcard := congrArg Multiset.card hf
    rw [Multiset.card_add, Multiset.card_add] at hcard
    have hidxf : idx ∈ Multiset.filter (· < endd) (thrMS s) :=
      Multiset.mem_filter.mpr ⟨hmemthr, hlt⟩
    have hpos : 0 < Multiset.card (Multiset.filter (· < endd) (thrMS s)) :=
      Multiset.card_pos_iff_exists_mem.mpr ⟨idx, hidxf⟩
    have hlen : Multiset.card (procMS s) = s.processed.length := by
      simp [procMS]
    have hA : Multiset.card
        ((List.range' start (endd - start) : List Nat) : Multiset Nat)
        = endd - start := by
      simp [List.length_range']
    have hce := inv.counter_eq
    simp only [Multiset.card_zero] at hcard
    omega

/-- Each step preserves the invariant, provided the inputs satisfy the
no-overflow side condition for `endd` (so `fetch_add` never wraps). -/
lemma DInv_step {start endd wc : Nat} {s s' : DState}
    (hP2 : endd + wc + 1 ≤ usizeMax)
    (inv : DInv start endd wc s) (hstep : DStep endd s s') :
    DInv start endd wc s' := by
  cases hstep with
  | process t idx hidx hlt =>
    have hM : 0 < usizeMod := by norm_num [usizeMod]
    have hle := process_counter_lt start endd wc inv hidx hlt
    have hmod : (s.counter + 1) % usizeMod = s.counter + 1 := by
      simp only [usizeMax] at hP2
      exact Nat.mod_eq_of_lt (by omega)
    rw [hmod]
    have ht : t < s.threads.length := (List.getElem?_eq_some.mp hidx).1
    have hmap : (s.threads.map DThread.heldIdx)[t]? = some idx := by
      rw [List.getElem?_map, hidx]; rfl
    have hset := multiset_set (s.threads.map DThread.heldIdx) t s.counter idx hmap
    refine ⟨by simpa using inv.len,
      by show start + wc + 1 ≤ s.counter + 1; have := inv.counter_ge; omega,
      ?_, ?_, ?_, ?_⟩
    · show s.counter + 1 = start + wc + 1 + ((t, idx) :: s.processed).length
      have := inv.counter_eq
      simp only [List.length_cons]
      omega
    · show procMS ⟨s.counter + 1, s.threads.set t (.run s.counter),
          (t, idx) :: s.processed⟩ + _ = _
      have hthr : thrMS ⟨s.counter + 1, s.threads.set t (.run s.counter),
          (t, idx) :: s.processed⟩
          = ((s.threads.map DThread.heldIdx).set t s.counter : List Nat) := by
        simp only [thrMS, List.map_set]
        rfl
      have hproc : procMS ⟨s.counter + 1, s.threads.set t (.run s.counter),
          (t, idx) :: s.processed⟩ = idx ::ₘ procMS s := by
        simp only [procMS, List.map_cons]
        rw [← Multiset.cons_coe]
      rw [hproc, hthr]
      have hc : s.counter + 1 - start = (s.counter - start) + 1 := by
        have := inv.counter_ge; omega
      rw [hc]
      have hconcat : List.range' start (s.counter - start + 1)
          = List.range' start (s.counter - start) ++ [s.counter] := by
        have h0 : List.range' start (s.counter - start + 1)
            = List.range' start (s.counter - start)
              ++ [start + 1 * (s.counter - start)] :=
          List.range'_concat start (s.counter - start)
        have h1 : start + 1 * (s.counter - start) = s.counter := by
          have := inv.counter_ge; omega
        rw [h1] at h0
        exact h0
      rw [hconcat]
      calc (idx ::ₘ procMS s)
            + ((s.threads.map DThread.heldIdx).set t s.counter : List Nat)
          = procMS s
            + (((s.threads.map DThread.heldIdx).set t s.counter : List Nat)
               + {idx}) := by
            rw [← Multiset.singleton_add]
            abel
        _ = procMS s + (thrMS s + {s.counter}) := by rw [hset]; rfl
        _ = (procMS s + thrMS s) + {s.counter} := by abel
        _ = ((List.range' start (s.counter - start) : List Nat)
              + ({s.counter} : Multiset Nat)) := by rw [inv.split]
        _ = ((List.range' start (s.counter - start) ++ [s.counter] : List Nat)
              : Multiset Nat) := by
            rw [← Multiset.coe_add]
            rfl
    · intro p hp
      rcases List.mem_cons.mp hp with h | h
      · subst h
        exact ⟨hlt, by rw [inv.len] at ht; exact ht⟩
      · exact inv.proc_lt p h
    · intro th hth i hi
      rcases List.mem_or_eq_of_mem_set hth with h | h
      · exact inv.fin_ge th h i hi
      · rw [h] at hi; exact absurd hi (by simp)
  | finish t idx hidx hge =>
    have hmap : (s.threads.map DThread.heldIdx)[t]? = some idx := by
      rw [List.getElem?_map, hidx]; rfl
    have hset := multiset_set (s.threads.map DThread.heldIdx) t idx idx hmap
    refine ⟨by simpa using inv.len, inv.counter_ge, inv.counter_eq, ?_,
      inv.proc_lt, ?_⟩
    · show procMS ⟨s.counter, s.threads.set t (.fin idx), s.processed⟩ + _ = _
      have hthr : thrMS ⟨s.counter, s.threads.set t (.fin idx), s.processed⟩
          = ((s.threads.map DThread.heldIdx).set t idx : List Nat) := by
        simp only [thrMS, List.map_set]
        rfl
      have hproc : procMS ⟨s.counter, s.threads.set t (.fin idx), s.processed⟩
          = procMS s := rfl
      rw [hproc, hthr]
      have : ((s.threads.map DThread.heldIdx).set t idx : List Nat)
          = thrMS s := by
        have := add_right_cancel hset
        exact this
      rw [this]
      exact inv.split
    · intro th hth i hi
      rcases List.mem_or_eq_of_mem_set hth with h | h
      · exact inv.fin_ge th h i hi
      · rw [h] at hi
        simp only [DThread.fin.injEq] at hi
        omega

/-- The invariant holds in every reachable state of a run whose inputs
satisfy the no-overflow side conditions. -/
lemma DInv_reach {start endd wc : Nat} {s : DState}
    (hP1 : start + wc + 1 ≤ usizeMax) (hP2 : endd + wc + 1 ≤ usizeMax)
    (h : Relation.ReflTransGen (DStep endd) (dInit start wc) s) :
    DInv start endd wc s := by
  induction h with
  | refl => exact DInv_init start endd wc hP1
  | tail _ hstep ih => exact DInv_step hP2 ih hstep

/-- Coverage of `iter_dynamic` under the no-overflow side conditions: in any
reachable state in which every participant has exited, the multiset of
indices handed to `f` is exactly the input range `[start, endd)`, once
each. -/
lemma dyn_coverage {start endd wc : Nat} {s : DState}
    (hP1 : start + wc + 1 ≤ usizeMax) (hP2 : endd + wc + 1 ≤ usizeMax)
    (h : Relation.ReflTransGen (DStep endd) (dInit start wc) s)
    (hdone : dDone s) :
    procMS s = (List.range' start (endd - start) : List Nat) := by
  have inv := DInv_reach hP1 hP2 h
  have hthr_ge : ∀ x ∈ thrMS s, endd ≤ x := by
    intro x hx
    simp only [thrMS, Multiset.mem_coe, List.mem_map] at hx
    obtain ⟨th, hth, hval⟩ := hx
    have hfin := hdone th hth
    cases th with
    | run i => simp [DThread.isFin] at hfin
    | fin i =>
      have := inv.fin_ge _ hth i rfl
      simp only [DThread.heldIdx] at hval
      omega
  have hproc_lt : ∀ x ∈ procMS s, x < endd := by
    intro x hx
    simp only [procMS, Multiset.mem_coe, List.mem_map] at hx
    obtain ⟨p, hp, hval⟩ := hx
    have := (inv.proc_lt p hp).1
    omega
  rcases le_or_lt endd start with hcase | hcase
  · have h0 : endd - start = 0 := by omega
    rw [h0]
    have : procMS s = 0 := by
      rw [Multiset.eq_zero_iff_forall_not_mem]
      intro x hx
      have hxlt := hproc_lt x hx
      have hxmem : x ∈ procMS s + thrMS s := Multiset.mem_add.mpr (Or.inl hx)
      rw [inv.split] at hxmem
      have := (List.mem_range'_1.mp (Multiset.mem_coe.mp hxmem)).1
      omega
    rw [this]
    rfl
  · -- the counter has passed `endd`: some participant exists and its final
    -- held index is both `≥ endd` and `< counter`
    have hc_gt : endd < s.counter := by
      have hlen : s.threads ≠ [] := by
        intro hnil
        have := inv.len
        rw [hnil] at this
        simp at this
      obtain ⟨th, hth⟩ := List.exists_mem_of_ne_nil s.threads hlen
      have hval : th.heldIdx ∈ thrMS s := by
        simp only [thrMS, Multiset.mem_coe]
        exact List.mem_map_of_mem DThread.heldIdx hth
      have hge := hthr_ge _ hval
      have hmem : th.heldIdx ∈ procMS s + thrMS s := Multiset.mem_add.mpr (Or.inr hval)
      rw [inv.split] at hmem
      have := (List.mem_range'_1.mp (Multiset.mem_coe.mp hmem)).2
      omega
    have hsplitrange : (List.range' start (s.counter - start) : List Nat)
        = ((List.range' start (endd - start)
            ++ List.range' endd (s.counter - endd) : List Nat) : Multiset Nat) := by
      congr 1
      have h0 : List.range' start (endd - start)
          ++ List.range' (start + (endd - start)) (s.counter - endd)
          = List.range' start ((s.counter - endd) + (endd - start)) := by
        have := List.range'_append start (endd - start) (s.counter - endd) 1
        simp only [Nat.one_mul] at this
        exact this
      have h1 : start + (endd - start) = endd := by omega
      have h2 : (s.counter - endd) + (endd - start) = s.counter - start := by omega
      rw [h1, h2] at h0
      exact h0.symm
    have hfiltered := congrArg (Multiset.filter (· < endd)) (inv.split.trans
      (hsplitrange.trans (Multiset.coe_add _ _).symm))
    rw [Multiset.filter_add, Multiset.filter_add] at hfiltered
    rw [Multiset.filter_eq_self.mpr hproc_lt] at hfiltered
    rw [Multiset.filter_eq_nil.mpr (by
      intro a ha
      have := hthr_ge a ha
      omega)] at hfiltered
    rw [Multiset.filter_eq_self.mpr (by
      intro a ha
      have := (List.mem_range'_1.mp (Multiset.mem_coe.mp ha)).2
      omega)] at hfiltered
    rw [Multiset.filter_eq_nil.mpr (by
      intro a ha
      have := (List.mem_range'_1.mp (Multiset.mem_coe.mp ha)).1
      omega)] at hfiltered
    simpa using hfiltered

/-- Executable version of one `iter_dynamic` step for participant `t`. -/
def dStepFn (endd t : Nat) (s : DState) : Option DState :=
  match s.threads[t]? with
  | some (.run idx) =>
    if idx < endd then
      some ⟨(s.counter + 1) % usizeMod, s.threads.set t (.run s.counter),
        (t, idx) :: s.processed⟩
    else
      some ⟨s.counter, s.threads.set t (.fin idx), s.processed⟩
  | _ => none

/-- `dStepFn` only takes steps of the transition relation. -/
lemma dStepFn_sound {endd t : Nat} {s s' : DState}
    (h : dStepFn endd t s = some s') : DStep endd s s' := by
  unfold dStepFn at h
  cases hth : s.threads[t]? with
  | none => rw [hth] at h; exact absurd h (by simp)
  | some th =>
    rw [hth] at h
    cases th with
    | fin i => exact absurd h (by simp)
    | run idx =>
      dsimp only at h
      by_cases hlt : idx < endd
      · rw [if_pos hlt] at h
        cases h
        exact DStep.process s t idx hth hlt
      · rw [if_neg hlt] at h
        cases h
        exact DStep.finish s t idx hth (by omega)

/-- Run a concrete schedule of participant steps (ids of the participant to
step next; a participant that cannot step is skipped). -/
def dRun (endd : Nat) (sched : List Nat) (s : DState) : DState :=
  sched.foldl (fun s t => (dStepFn endd t s).getD s) s

/-- Any scheduled run stays within the reflexive-transitive closure of the
step relation. -/
lemma dRun_reachable (endd : Nat) (sched : List Nat) (s : DState) :
    Relation.ReflTransGen (DStep endd) s (dRun endd sched s) := by
  induction sched generalizing s with
  | nil => exact Relation.ReflTransGen.refl
  | cons t ts ih =>
    show Relation.ReflTransGen (DStep endd) s
      (dRun endd ts ((dStepFn endd t s).getD s))
    cases hstep : dStepFn endd t s with
    | none =>
      exact ih s
    | some s' =>
      exact Relation.ReflTransGen.head (dStepFn_sound hstep) (ih s')

/--
C3 (amended): for every half-open range `[start, endd)` and worker count
such that `start + wc + 1` and `endd + wc + 1` do not exceed `usize::MAX`
(so the shared `fetch_add` counter never wraps), `iter_dynamic` initializes
the shared counter to `start + wc + 1`, participant `t` first holds index
`start + t`, subsequent indices come from `fetch_add(1)` on the counter, and
in every completed execution — regardless of scheduling order — the multiset
of indices handed to `f` is exactly `[start, endd)`, once each.  Without the
bound the counter wraps mod `2^64` and the coverage fails (see the
counterexample below).
-/
theorem C3_iter_dynamic_exactly_once (start endd wc : Nat)
    (hP1 : start + wc + 1 ≤ usizeMax) (hP2 : endd + wc + 1 ≤ usizeMax) :
    (dInit start wc).counter = start + wc + 1
  ∧ (∀ t, t ≤ wc → (dInit start wc).threads[t]? = some (.run (start + t)))
  ∧ (∀ s, Relation.ReflTransGen (DStep endd) (dInit start wc) s → dDone s →
      procMS s = (List.range' start (endd - start) : List Nat)) := by
  refine ⟨?_, ?_, ?_⟩
  · show (start + wc + 1) % usizeMod = start + wc + 1
    have hM : 0 < usizeMod := by norm_num [usizeMod]
    simp only [usizeMax] at hP1
    exact Nat.mod_eq_of_lt (by omega)
  · intro t ht
    show ((List.range (wc + 1)).map (fun t => DThread.run (start + t)))[t]?
      = some (.run (start + t))
    rw [List.getElem?_map, List.getElem?_range (by omega)]
    rfl
  · intro s h hdone
    exact dyn_coverage hP1 hP2 h hdone

/-- Witness for C3 at `start = 3`, `endd = 8`, `wc = 1`: a concrete completed
interleaving (thread 0 first, then thread 1) claims `[3, 8)` exactly once. -/
theorem C3_iter_dynamic_exactly_once_witness :
    dDone (dRun 8 [0, 0, 0, 0, 0, 1, 1] (dInit 3 1))
  ∧ procMS (dRun 8 [0, 0, 0, 0, 0, 1, 1] (dInit 3 1))
      = (List.range' 3 (8 - 3) : List Nat) :=
  ⟨by decide,
    (C3_iter_dynamic_exactly_once 3 8 1 (by decide) (by decide)).2.2 _
      (dRun_reachable 8 [0, 0, 0, 0, 0, 1, 1] (dInit 3 1)) (by decide)⟩

/-- Climbing phase of the wrap counterexample over the range
`[2^64 - 3, 2^64 - 1)`: participant 0 has already exited holding
`2^64 - 1`; participant 1 runs holding index `k` while the counter reads
`k + 1`.  It processes every index up to `2^64 - 2` — the counter wrapping
to `0` on the final `fetch_add` — and then exits, appending exactly
`n = 2^64 - 1 - k` pairs to the processed list. -/
lemma climbRun : ∀ (n k : Nat) (p : List (Nat × Nat)),
    k + n = usizeMod - 1 → 1 ≤ n →
    ∃ r : List (Nat × Nat), r.length = n ∧
      Relation.ReflTransGen (DStep (usizeMod - 1))
        ⟨k + 1, [DThread.fin (usizeMod - 1), DThread.run k], p⟩
        ⟨0, [DThread.fin (usizeMod - 1), DThread.fin (usizeMod - 1)], r ++ p⟩ := by
  intro n
  induction n with
  | zero =>
    intro k p hk h1
    omega
  | succ m ih =>
    intro k p hk _
    have hM : 2 ≤ usizeMod := by norm_num [usizeMod]
    have hlt : k < usizeMod - 1 := by omega
    have hstep1 : DStep (usizeMod - 1)
        (⟨k + 1, [DThread.fin (usizeMod - 1), DThread.run k], p⟩ : DState)
        ⟨(k + 1 + 1) % usizeMod,
          [DThread.fin (usizeMod - 1), DThread.run (k + 1)], (1, k) :: p⟩ :=
      DStep.process _ 1 k rfl hlt
    by_cases hm : m = 0
    · subst hm
      have hk2 : k = usizeMod - 2 := by omega
      subst hk2
      have e1 : (usizeMod - 2 + 1 + 1) % usizeMod = 0 := by
        rw [show usizeMod - 2 + 1 + 1 = usizeMod from by omega, Nat.mod_self]
      have e2 : usizeMod - 2 + 1 = usizeMod - 1 := by omega
      rw [e1, e2] at hstep1
      have hstep2 : DStep (usizeMod - 1)
          (⟨0, [DThread.fin (usizeMod - 1), DThread.run (usizeMod - 1)],
            (1, usizeMod - 2) :: p⟩ : DState)
          ⟨0, [DThread.fin (usizeMod - 1), DThread.fin (usizeMod - 1)],
            (1, usizeMod - 2) :: p⟩ :=
        DStep.finish _ 1 (usizeMod - 1) rfl (le_refl _)
      exact ⟨[(1, usizeMod - 2)], rfl,
        Relation.ReflTransGen.head hstep1 (Relation.ReflTransGen.single hstep2)⟩
    · have e : (k + 1 + 1) % usizeMod = k + 2 :=
        Nat.mod_eq_of_lt (by omega)
      rw [e] at hstep1
      obtain ⟨r, hrlen, hrun⟩ := ih (k + 1) ((1, k) :: p) (by omega) (by omega)
      have hl : r ++ ((1, k) :: p) = (r ++ [(1, k)]) ++ p := by simp
      rw [hl] at hrun
      exact ⟨r ++ [(1, k)], by simp [hrlen],
        Relation.ReflTransGen.head hstep1 hrun⟩

/--
C3 counterexample: the original claim fails on the program at a
representable input.  Over `[2^64 - 3, 2^64 - 1)` with one background
worker, the counter starts at `2^64 - 1`; the first `fetch_add` hands out
`2^64 - 1` and wraps the `AtomicUsize` to `0`, after which the other
participant claims index `0` (outside the range) and keeps claiming — a
completed execution exists whose processed multiset is not `[start, end)`
once each.
-/
theorem C3_iter_dynamic_exactly_once_counterexample :
    ∃ s : DState,
      Relation.ReflTransGen (DStep (usizeMod - 1)) (dInit (usizeMod - 3) 1) s
    ∧ dDone s
    ∧ procMS s
        ≠ ((List.range' (usizeMod - 3) ((usizeMod - 1) - (usizeMod - 3))
            : List Nat) : Multiset Nat) := by
  have hM : 4 ≤ usizeMod := by norm_num [usizeMod]
  have hpre := dRun_reachable (usizeMod - 1) [0, 0, 1] (dInit (usizeMod - 3) 1)
  have hS3 : dRun (usizeMod - 1) [0, 0, 1] (dInit (usizeMod - 3) 1)
      = ⟨1, [DThread.fin (usizeMod - 1), DThread.run 0],
          [(1, usizeMod - 2), (0, usizeMod - 3)]⟩ := by
    decide
  rw [hS3] at hpre
  obtain ⟨r, hrlen, hrun⟩ := climbRun (usizeMod - 1) 0
    [(1, usizeMod - 2), (0, usizeMod - 3)] (by omega) (by omega)
  refine ⟨_, hpre.trans hrun, ?_, ?_⟩
  · intro th hth
    simp only [List.mem_cons, List.not_mem_nil, or_false] at hth
    rcases hth with rfl | rfl <;> rfl
  · intro hEq
    have hcard := congrArg Multiset.card hEq
    simp only [procMS, Multiset.coe_card, List.length_map, List.length_append,
      List.length_cons, List.length_nil, List.length_range'] at hcard
    rw [hrlen] at hcard
    omega

/-! ### The broadcast handshake
(`Scope::broadcast_impl`, scope.rs lines 25-56, and `State::worker`,
scope.rs lines 116-143)

One `broadcast` call on a pool of `wc` background workers, modelled as an
interleaved transition system.  The caller's sequenced side effects are:
store the work reference, reset `pending` to `wc` (Relaxed), bump
`generation` (Release) — the publication point — run `f(0)` inline, and
busy-wait for `pending == 0`.  Each worker polls `generation` (Acquire),
and once it observes the bump reads the work item, runs it with its thread
index, and decrements `pending` (Release).  The Release/Acquire pair on
`generation` makes the caller's prior writes visible to an observing worker,
which the model reflects by letting `observe` fire only after the `publish`
step. -/

/-- Phase of one background worker within a single broadcast round. -/
inductive WPhase where
  | waiting   -- polling `generation`
  | ready     -- observed the bumped generation, about to read and run work
  | ran       -- executed the work item with its thread index
  | done      -- decremented `pending`, back to polling
deriving DecidableEq, Repr

/-- Phase of the caller inside `broadcast_impl`. -/
inductive CPhase where
  | start          -- entered `broadcast_impl`
  | storedWork     -- stored the work reference into `state.work`
  | storedPending  -- stored `workers` into `state.pending`
  | published      -- incremented `state.generation` (Release)
  | ranInline      -- executed `f(0)`
  | returned       -- observed `pending == 0`; `ResetGuard` ran; returned
deriving DecidableEq, Repr

/-- Interleaved state of one broadcast round.  `execs` records, in order, the
participant indices with which the work item has been invoked (`0` is the
caller, `t + 1` is background worker `t`). -/
structure BState where
  caller : CPhase
  pending : Nat
  genBumped : Bool
  workers : List WPhase
  execs : List Nat
deriving DecidableEq, Repr

/-- State on entry to `broadcast_impl`: the previous round has drained
(`pending = 0`), every worker is polling an unchanged generation. -/
def bInit (wc : Nat) : BState where
  caller := .start
  pending := 0
  genBumped := false
  workers := List.replicate wc .waiting
  execs := []

/-- One interleaved step of the broadcast round. -/
inductive BStep (wc : Nat) : BState → BState → Prop where
  | storeWork (s) : s.caller = .start →
      BStep wc s { s with caller := .storedWork }
  | storePending (s) : s.caller = .storedWork →
      BStep wc s { s with caller := .storedPending, pending := wc }
  | publish (s) : s.caller = .storedPending →
      BStep wc s { s with caller := .published, genBumped := true }
  | runInline (s) : s.caller = .published →
      BStep wc s { s with caller := .ranInline, execs := s.execs ++ [0] }
  | callerReturn (s) : s.caller = .ranInline → s.pending = 0 →
      BStep wc s { s with caller := .returned }
  | observe (s) (t : Nat) : s.workers[t]? = some .waiting → s.genBumped = true →
      BStep wc s { s with workers := s.workers.set t .ready }
  | runWork (s) (t : Nat) : s.workers[t]? = some .ready →
      BStep wc s
        { s with workers := s.workers.set t .ran, execs := s.execs ++ [t + 1] }
  | decrPending (s) (t : Nat) : s.workers[t]? = some .ran →
      BStep wc s
        { s with workers := s.workers.set t .done, pending := s.pending - 1 }

/-- Whether the caller has passed the publication point (generation bump). -/
def callerPublished : CPhase → Bool
  | .start | .storedWork | .storedPending => false
  | .published | .ranInline | .returned => true

/-- Whether the caller has executed `f(0)`. -/
def callerRan : CPhase → Bool
  | .ranInline | .returned => true
  | _ => false

/-- Element counts under a point update of a list. -/
lemma count_set {α : Type} [DecidableEq α] (l : List α) (t : Nat) (b x : α)
    (h : l[t]? = some x) (a : α) :
    (l.set t b).count a + (if a = x then 1 else 0)
      = l.count a + (if a = b then 1 else 0) := by
  have h2 := congrArg (Multiset.count a) (multiset_set l t b x h)
  simpa [Multiset.count_singleton] using h2

/-- A list with an element different from `a` has fewer than `length` many
`a`s. -/
lemma count_lt_length {α : Type} [DecidableEq α] (l : List α) (t : Nat)
    (x a : α) (hx : l[t]? = some x) (hne : x ≠ a) : l.count a < l.length := by
  induction l generalizing t with
  | nil => simp at hx
  | cons b bs ih =>
    cases t with
    | zero =>
      simp only [List.getElem?_cons_zero, Option.some_inj] at hx
      subst hx
      have h1 : bs.count a ≤ bs.length := List.count_le_length a bs
      simp only [List.count_cons, List.length_cons]
      have hb : (b == a) = false := beq_eq_false_iff_ne.mpr hne
      rw [hb]
      simp
      omega
    | succ n =>
      have h1 := ih n (by simpa using hx)
      simp only [List.count_cons, List.length_cons]
      have h2 : (if (b == a) = true then 1 else 0) ≤ 1 := by
        by_cases hba : (b == a) = true <;> simp [hba]
      omega

/-- Invariant of the broadcast transition system. -/
structure BInv (wc : Nat) (s : BState) : Prop where
  len : s.workers.length = wc
  gen : s.genBumped = callerPublished s.caller
  pre : s.genBumped = false → (∀ w ∈ s.workers, w = .waiting) ∧ s.execs = []
  pendingSet : s.caller = .storedPending → s.pending = wc
  drain : s.genBumped = true → s.pending + s.workers.count .done = wc
  exec0 : s.execs.count 0 = (if callerRan s.caller then 1 else 0)
  execW : ∀ t ph, s.workers[t]? = some ph →
      s.execs.count (t + 1) = (if ph = .ran ∨ ph = .done then 1 else 0)
  ret : s.caller = .returned → s.pending = 0

/-- The initial state satisfies the invariant. -/
lemma BInv_init (wc : Nat) : BInv wc (bInit wc) := by
  refine ⟨by simp [bInit], rfl, ?_, ?_, ?_, rfl, ?_, ?_⟩
  · intro _
    exact ⟨fun w hw => List.eq_of_mem_replicate hw, rfl⟩
  · intro h; exact absurd h (by simp [bInit])
  · intro h; exact absurd h (by simp [bInit])
  · intro t ph hph
    have : ph = .waiting :=
      List.eq_of_mem_replicate (List.getElem?_mem hph)
    subst this
    simp [bInit]
  · intro h; exact absurd h (by simp [bInit])

/-- Each step of the broadcast round preserves the invariant. -/
lemma BInv_step {wc : Nat} {s s' : BState}
    (inv : BInv wc s) (hstep : BStep wc s s') : BInv wc s' := by
  cases hstep with
  | storeWork hc =>
    refine ⟨inv.len, ?_, inv.pre, ?_, ?_, ?_, inv.execW, ?_⟩
    · show s.genBumped = callerPublished .storedWork
      rw [inv.gen, hc]
      decide
    · intro h
      exact absurd (show CPhase.storedWork = CPhase.storedPending from h) (by decide)
    · intro h
      have h2 : s.genBumped = true := h
      rw [inv.gen, hc] at h2
      exact absurd h2 (by decide)
    · show s.execs.count 0 = _
      rw [inv.exec0, hc]
      dsimp only
      decide
    · intro h
      exact absurd (show CPhase.storedWork = CPhase.returned from h) (by decide)
  | storePending hc =>
    refine ⟨inv.len, ?_, inv.pre, ?_, ?_, ?_, inv.execW, ?_⟩
    · show s.genBumped = callerPublished .storedPending
      rw [inv.gen, hc]
      decide
    · intro _
      rfl
    · intro h
      have h2 : s.genBumped = true := h
      rw [inv.gen, hc] at h2
      exact absurd h2 (by decide)
    · show s.execs.count 0 = _
      rw [inv.exec0, hc]
      dsimp only
      decide
    · intro h
      exact absurd (show CPhase.storedPending = CPhase.returned from h) (by decide)
  | publish hc =>
    refine ⟨inv.len, rfl, ?_, ?_, ?_, ?_, inv.execW, ?_⟩
    · intro h
      exact absurd (show (true : Bool) = false from h) (by decide)
    · intro h
      exact absurd (show CPhase.published = CPhase.storedPending from h) (by decide)
    · intro _
      have hG : s.genBumped = false := by rw [inv.gen, hc]; decide
      have hall := (inv.pre hG).1
      have hcnt : s.workers.count WPhase.done = 0 := by
        rw [List.count_eq_zero]
        intro hmem
        exact absurd (hall _ hmem) (by decide)
      have hp := inv.pendingSet hc
      show s.pending + s.workers.count WPhase.done = wc
      omega
    · show s.execs.count 0 = _
      rw [inv.exec0, hc]
      dsimp only
      decide
    · intro h
      exact absurd (show CPhase.published = CPhase.returned from h) (by decide)
  | runInline hc =>
    refine ⟨inv.len, ?_, ?_, ?_, ?_, ?_, ?_, ?_⟩
    · show s.genBumped = callerPublished .ranInline
      rw [inv.gen, hc]
      decide
    · intro h
      exact absurd (show s.genBumped = false from h) (by rw [inv.gen, hc]; decide)
    · intro h
      exact absurd (show CPhase.ranInline = CPhase.storedPending from h) (by decide)
    · intro h
      exact inv.drain h
    · show (s.execs ++ [0]).count 0 = _
      rw [List.count_append, inv.exec0, hc]
      dsimp only
      decide
    · intro t ph hph
      show (s.execs ++ [0]).count (t + 1) = _
      have hcnt : ([0] : List Nat).count (t + 1) = 0 := by
        rw [List.count_eq_zero]
        simp
      rw [List.count_append, inv.execW t ph hph, hcnt]
      omega
    · intro h
      exact absurd (show CPhase.ranInline = CPhase.returned from h) (by decide)
  | callerReturn hc hp =>
    refine ⟨inv.len, ?_, ?_, ?_, ?_, ?_, inv.execW, ?_⟩
    · show s.genBumped = callerPublished .returned
      rw [inv.gen, hc]
      decide
    · intro h
      exact absurd (show s.genBumped = false from h) (by rw [inv.gen, hc]; decide)
    · intro h
      exact absurd (show CPhase.returned = CPhase.storedPending from h) (by decide)
    · intro h
      exact inv.drain h
    · show s.execs.count 0 = _
      rw [inv.exec0, hc]
      dsimp only
      decide
    · intro _
      exact hp
  | observe t hw hg =>
    refine ⟨?_, inv.gen, ?_, ?_, ?_, inv.exec0, ?_, ?_⟩
    · show (s.workers.set t WPhase.ready).length = wc
      rw [List.length_set]
      exact inv.len
    · intro h
      exact absurd (hg.symm.trans (show s.genBumped = false from h)) (by decide)
    · intro h
      exact inv.pendingSet h
    · intro h
      have hcs := count_set s.workers t WPhase.ready WPhase.waiting hw WPhase.done
      rw [if_neg (by decide), if_neg (by decide)] at hcs
      have hd := inv.drain h
      show s.pending + (s.workers.set t WPhase.ready).count WPhase.done = wc
      omega
    · intro t' ph hph
      by_cases hte : t' = t
      · subst hte
        have ht : t' < s.workers.length := (List.getElem?_eq_some.mp hw).1
        have hset : (s.workers.set t' WPhase.ready)[t']? = some WPhase.ready := by
          simp [List.getElem?_set_self', List.getElem?_eq_getElem ht]
        rw [hset] at hph
        have hphr : WPhase.ready = ph := by injection hph
        subst hphr
        show s.execs.count (t' + 1) = _
        rw [inv.execW t' WPhase.waiting hw]
        decide
      · have hne : (s.workers.set t WPhase.ready)[t']? = s.workers[t']? :=
          List.getElem?_set_ne (Ne.symm hte)
        rw [hne] at hph
        exact inv.execW t' ph hph
    · intro h
      exact inv.ret h
  | runWork t hw =>
    refine ⟨?_, inv.gen, ?_, ?_, ?_, ?_, ?_, ?_⟩
    · show (s.workers.set t WPhase.ran).length = wc
      rw [List.length_set]
      exact inv.len
    · intro h
      exact absurd ((inv.pre (show s.genBumped = false from h)).1 _
        (List.getElem?_mem hw)) (by decide)
    · intro h
      exact inv.pendingSet h
    · intro h
      have hcs := count_set s.workers t WPhase.ran WPhase.ready hw WPhase.done
      rw [if_neg (by decide), if_neg (by decide)] at hcs
      have hd := inv.drain h
      show s.pending + (s.workers.set t WPhase.ran).count WPhase.done = wc
      omega
    · show (s.execs ++ [t + 1]).count 0 = _
      have hcnt : ([t + 1] : List Nat).count 0 = 0 := by
        rw [List.count_eq_zero]
        simp
      rw [List.count_append, inv.exec0, hcnt]
      dsimp only
      omega
    · intro t' ph hph
      show (s.execs ++ [t + 1]).count (t' + 1) = _
      by_cases hte : t' = t
      · subst hte
        have ht : t' < s.workers.length := (List.getElem?_eq_some.mp hw).1
        have hset : (s.workers.set t' WPhase.ran)[t']? = some WPhase.ran := by
          simp [List.getElem?_set_self', List.getElem?_eq_getElem ht]
        rw [hset] at hph
        have hphr : WPhase.ran = ph := by injection hph
        subst hphr
        have hcnt : ([t' + 1] : List Nat).count (t' + 1) = 1 := by simp
        rw [List.count_append, inv.execW t' WPhase.ready hw, hcnt]
        decide
      · have hne : (s.workers.set t WPhase.ran)[t']? = s.workers[t']? :=
          List.getElem?_set_ne (Ne.symm hte)
        rw [hne] at hph
        have hcnt : ([t + 1] : List Nat).count (t' + 1) = 0 := by
          rw [List.count_eq_zero]
          simp
          omega
        rw [List.count_append, inv.execW t' ph hph, hcnt]
        omega
    · intro h
      exact inv.ret h
  | decrPending t hw =>
    refine ⟨?_, inv.gen, ?_, ?_, ?_, inv.exec0, ?_, ?_⟩
    · show (s.workers.set t WPhase.done).length = wc
      rw [List.length_set]
      exact inv.len
    · intro h
      exact absurd ((inv.pre (show s.genBumped = false from h)).1 _
        (List.getElem?_mem hw)) (by decide)
    · intro h
      have hG : s.genBumped = false := by
        rw [inv.gen, (show s.caller = CPhase.storedPending from h)]
        decide
      exact absurd ((inv.pre hG).1 _ (List.getElem?_mem hw)) (by decide)
    · intro h
      have hcs := count_set s.workers t WPhase.done WPhase.ran hw WPhase.done
      rw [if_neg (by decide), if_pos rfl] at hcs
      have hlt := count_lt_length s.workers t WPhase.ran WPhase.done hw (by decide)
      rw [inv.len] at hlt
      have hd := inv.drain h
      show s.pending - 1 + (s.workers.set t WPhase.done).count WPhase.done = wc
      omega
    · intro t' ph hph
      by_cases hte : t' = t
      · subst hte
        have ht : t' < s.workers.length := (List.getElem?_eq_some.mp hw).1
        have hset : (s.workers.set t' WPhase.done)[t']? = some WPhase.done := by
          simp [List.getElem?_set_self', List.getElem?_eq_getElem ht]
        rw [hset] at hph
        have hphr : WPhase.done = ph := by injection hph
        subst hphr
        show s.execs.count (t' + 1) = _
        rw [inv.execW t' WPhase.ran hw]
        decide
      · have hne : (s.workers.set t WPhase.done)[t']? = s.workers[t']? :=
          List.getElem?_set_ne (Ne.symm hte)
        rw [hne] at hph
        exact inv.execW t' ph hph
    · intro h
      have := inv.ret h
      show s.pending - 1 = 0
      omega

/-- The invariant holds in every reachable state of the broadcast round. -/
lemma BInv_reach {wc : Nat} {s : BState}
    (h : Relation.ReflTransGen (BStep wc) (bInit wc) s) : BInv wc s := by
  induction h with
  | refl => exact BInv_init wc
  | tail _ hstep ih => exact BInv_step ih hstep

/--
C1: in every execution of one `broadcast(f)` round that has returned, the
work item was executed exactly once with every participant index in
`0..=wc` (index `0` inline by the caller via the `runInline` step), and at
the moment `broadcast` returns every background worker has finished
(decremented `pending`) — the caller cannot return earlier, since the
`callerReturn` step requires `pending = 0`.
-/
theorem C1_broadcast_exactly_once (wc : Nat) (s : BState)
    (h : Relation.ReflTransGen (BStep wc) (bInit wc) s)
    (hret : s.caller = .returned) :
    (∀ i, i ≤ wc → s.execs.count i = 1) ∧ (∀ w ∈ s.workers, w = .done) := by
  have inv := BInv_reach h
  have hG : s.genBumped = true := by rw [inv.gen, hret]; decide
  have hp0 := inv.ret hret
  have hd := inv.drain hG
  have hcnt : s.workers.count .done = s.workers.length := by rw [inv.len]; omega
  have hall : ∀ w ∈ s.workers, w = .done := by
    intro w hw
    exact (List.count_eq_length.mp hcnt w hw).symm
  refine ⟨?_, hall⟩
  intro i hi
  cases i with
  | zero =>
    rw [inv.exec0, hret]
    decide
  | succ t =>
    have ht : t < s.workers.length := by rw [inv.len]; omega
    have hph := List.getElem?_eq_getElem ht
    have hdone := hall _ (List.getElem_mem ht)
    rw [inv.execW t _ hph, hdone]
    decide

/-- The possible actions of the broadcast round, for concrete scheduling:
one caller step, or worker `t` observing, running, or decrementing. -/
inductive BAct where
  | caller
  | observe (t : Nat)
  | runWork (t : Nat)
  | decr (t : Nat)
deriving DecidableEq, Repr

/-- Executable version of one broadcast-round step. -/
def bStepFn (wc : Nat) (a : BAct) (s : BState) : Option BState :=
  match a with
  | .caller =>
    match s.caller with
    | .start => some { s with caller := .storedWork }
    | .storedWork => some { s with caller := .storedPending, pending := wc }
    | .storedPending => some { s with caller := .published, genBumped := true }
    | .published => some { s with caller := .ranInline, execs := s.execs ++ [0] }
    | .ranInline =>
      if s.pending = 0 then some { s with caller := .returned } else none
    | .returned => none
  | .observe t =>
    match s.workers[t]? with
    | some .waiting =>
      if s.genBumped then some { s with workers := s.workers.set t .ready }
      else none
    | _ => none
  | .runWork t =>
    match s.workers[t]? with
    | some .ready =>
      some { s with workers := s.workers.set t .ran, execs := s.execs ++ [t + 1] }
    | _ => none
  | .decr t =>
    match s.workers[t]? with
    | some .ran =>
      some { s with workers := s.workers.set t .done, pending := s.pending - 1 }
    | _ => none

/-- `bStepFn` only takes steps of the broadcast transition relation. -/
lemma bStepFn_sound {wc : Nat} {a : BAct} {s s' : BState}
    (h : bStepFn wc a s = some s') : BStep wc s s' := by
  cases a with
  | caller =>
    unfold bStepFn at h
    dsimp only at h
    cases hc : s.caller with
    | start => rw [hc] at h; cases h; exact BStep.storeWork s hc
    | storedWork => rw [hc] at h; cases h; exact BStep.storePending s hc
    | storedPending => rw [hc] at h; cases h; exact BStep.publish s hc
    | published => rw [hc] at h; cases h; exact BStep.runInline s hc
    | ranInline =>
      rw [hc] at h
      dsimp only at h
      by_cases hp : s.pending = 0
      · rw [if_pos hp] at h
        cases h
        exact BStep.callerReturn s hc hp
      · rw [if_neg hp] at h
        exact absurd h (by simp)
    | returned => rw [hc] at h; exact absurd h (by simp)
  | observe t =>
    unfold bStepFn at h
    dsimp only at h
    cases hw : s.workers[t]? with
    | none => rw [hw] at h; exact absurd h (by simp)
    | some ph =>
      rw [hw] at h
      cases ph with
      | waiting =>
        dsimp only at h
        by_cases hg : s.genBumped = true
        · rw [if_pos hg] at h
          cases h
          exact BStep.observe s t hw hg
        · rw [if_neg hg] at h
          exact absurd h (by simp)
      | ready => exact absurd h (by simp)
      | ran => exact absurd h (by simp)
      | done => exact absurd h (by simp)
  | runWork t =>
    unfold bStepFn at h
    dsimp only at h
    cases hw : s.workers[t]? with
    | none => rw [hw] at h; exact absurd h (by simp)
    | some ph =>
      rw [hw] at h
      cases ph with
      | ready =>
        cases h
        exact BStep.runWork s t hw
      | waiting => exact absurd h (by simp)
      | ran => exact absurd h (by simp)
      | done => exact absurd h (by simp)
  | decr t =>
    unfold bStepFn at h
    dsimp only at h
    cases hw : s.workers[t]? with
    | none => rw [hw] at h; exact absurd h (by simp)
    | some ph =>
      rw [hw] at h
      cases ph with
      | ran =>
        cases h
        exact BStep.decrPending s t hw
      | waiting => exact absurd h (by simp)
      | ready => exact absurd h (by simp)
      | done => exact absurd h (by simp)

/-- Run a concrete schedule of broadcast-round actions. -/
def bRun (wc : Nat) (sched : List BAct) (s : BState) : BState :=
  sched.foldl (fun s a => (bStepFn wc a s).getD s) s

/-- Any scheduled run stays within the reflexive-transitive closure of the
broadcast step relation. -/
lemma bRun_reachable (wc : Nat) (sched : List BAct) (s : BState) :
    Relation.ReflTransGen (BStep wc) s (bRun wc sched s) := by
  induction sched generalizing s with
  | nil => exact Relation.ReflTransGen.refl
  | cons a as ih =>
    show Relation.ReflTransGen (BStep wc) s
      (bRun wc as ((bStepFn wc a s).getD s))
    cases hstep : bStepFn wc a s with
    | none => exact ih s
    | some s' => exact Relation.ReflTransGen.head (bStepFn_sound hstep) (ih s')

/-- Witness for C1 with `wc = 2` background workers: a concrete completed
interleaving returns with both workers done and every participant index
executed exactly once. -/
theorem C1_broadcast_exactly_once_witness :
    (bRun 2 [.caller, .caller, .caller, .caller, .observe 0, .runWork 0,
        .decr 0, .observe 1, .runWork 1, .decr 1, .caller] (bInit 2)).caller
      = .returned
  ∧ (∀ i, i ≤ 2 →
      (bRun 2 [.caller, .caller, .caller, .caller, .observe 0, .runWork 0,
          .decr 0, .observe 1, .runWork 1, .decr 1, .caller]
        (bInit 2)).execs.count i = 1)
  ∧ (∀ w ∈ (bRun 2 [.caller, .caller, .caller, .caller, .observe 0,
      .runWork 0, .decr 0, .observe 1, .runWork 1, .decr 1, .caller]
        (bInit 2)).workers, w = WPhase.done) := by
  have h := C1_broadcast_exactly_once 2
    (bRun 2 [.caller, .caller, .caller, .caller, .observe 0, .runWork 0,
      .decr 0, .observe 1, .runWork 1, .decr 1, .caller] (bInit 2))
    (bRun_reachable 2 _ (bInit 2)) (by decide)
  exact ⟨by decide, h.1, h.2⟩

/-! ### Event ordering of `broadcast_impl` (scope.rs lines 25-56)

The caller's sequenced side effects within one `broadcast_impl` call,
including the `ResetGuard` whose `Drop` impl runs when control leaves the
scope — on the normal path and on the unwinding path alike. -/

/-- A side effect of the caller inside `broadcast_impl`. -/
inductive BEvent where
  | storeWork                -- `state.work.set(...)` (line 31)
  | storePending (n : Nat)   -- `state.pending.store(workers, Relaxed)` (line 34)
  | bumpGeneration           -- `state.generation.fetch_add(1, Release)` (line 35)
  | execInline               -- `f(0)` (line 55)
  | waitPendingZero          -- the guard's busy-wait for `pending == 0`
  | storeStop                -- the guard's `state.work.set(STOP)` (line 49)
deriving DecidableEq, Repr

/-- Outcome of the call: normal return, or a panic unwinding out of `f(0)`. -/
inductive BOutcome where
  | ok
  | panicked
deriving DecidableEq, Repr

/-- `ResetGuard::drop` (scope.rs lines 39-51): busy-wait until `pending == 0`
with acquire loads, then store the `STOP` sentinel into `state.work`. -/
def resetGuardDrop : List BEvent := [.waitPendingZero, .storeStop]

/-- Running a body with a drop guard in scope: the guard's events run after
the body, before control (or the unwind) leaves the scope, on either
outcome. -/
def withGuard (guardEvents : List BEvent) (body : List BEvent × BOutcome) :
    List BEvent × BOutcome :=
  (body.1 ++ guardEvents, body.2)

/-- The caller-side event trace of `broadcast_impl` with `wc` workers,
parameterized by whether the inline call `f(0)` panics: store the work
reference, reset `pending`, bump `generation`, then run `f(0)` under the
`ResetGuard`. -/
def broadcastImplTrace (wc : Nat) (fPanics : Bool) : List BEvent × BOutcome :=
  let prologue : List BEvent := [.storeWork, .storePending wc, .bumpGeneration]
  let body : List BEvent × BOutcome :=
    if fPanics then ([.execInline], .panicked) else ([.execInline], .ok)
  let guarded := withGuard resetGuardDrop body
  (prologue ++ guarded.1, guarded.2)

/--
C4: within one `broadcast` call the caller's side effects happen in this
order, all before `broadcast` returns: store the work reference into
`current_work`; reset `pending` to `wc`; increment `generation` (release);
execute `work(0)` inline; busy-wait until `pending = 0`; and only then
overwrite `current_work` with the terminal stop marker.
-/
theorem C4_broadcast_effect_order (wc : Nat) :
    (broadcastImplTrace wc false).1
      = [.storeWork, .storePending wc, .bumpGeneration, .execInline,
         .waitPendingZero, .storeStop]
  ∧ (broadcastImplTrace wc false).2 = .ok
  ∧ (broadcastImplTrace wc false).1.indexOf .waitPendingZero + 1
      = (broadcastImplTrace wc false).1.indexOf .storeStop := by
  refine ⟨rfl, rfl, ?_⟩
  show ([BEvent.storeWork, .storePending wc, .bumpGeneration, .execInline,
    .waitPendingZero, .storeStop] : List BEvent).indexOf .waitPendingZero + 1
      = ([BEvent.storeWork, .storePending wc, .bumpGeneration, .execInline,
    .waitPendingZero, .storeStop] : List BEvent).indexOf .storeStop
  simp [List.indexOf_cons]

/--
C9: even when the inline execution `f(0)` unwinds with a panic, the
`ResetGuard`'s drop code still runs before the unwind leaves
`broadcast_impl`: the trace ends with the busy-wait for `pending = 0`
followed by the stop-marker store, on the panic path exactly as on the
normal path — the drain-and-reset step comes from the guard, not from the
function body running to completion.
-/
theorem C9_reset_guard_on_unwind (wc : Nat) :
    ((broadcastImplTrace wc true).2 = .panicked
      ∧ ∃ pre, (broadcastImplTrace wc true).1 = pre ++ resetGuardDrop)
  ∧ ((broadcastImplTrace wc false).2 = .ok
      ∧ ∃ pre, (broadcastImplTrace wc false).1 = pre ++ resetGuardDrop) :=
  ⟨⟨rfl, ⟨[.storeWork, .storePending wc, .bumpGeneration, .execInline], rfl⟩⟩,
   ⟨rfl, ⟨[.storeWork, .storePending wc, .bumpGeneration, .execInline], rfl⟩⟩⟩

/-! ### One worker-loop iteration (`State::worker`, scope.rs lines 116-143)

Rust source of the loop body after a generation change was observed:
```
let work = self.work.get();
if ptr::eq(work, STOP) \x7b
    return;
\x7d
work(thread);
self.pending.fetch_sub(1, Ordering::Release);
```
-/

/-- What a worker retrieves from `state.work`: the `STOP` sentinel or a real
work item. -/
inductive RetrievedWork where
  | stop
  | real
deriving DecidableEq, Repr

/-- A side effect of one worker-loop iteration. -/
inductive WEvent where
  | readWork
  | invokeWork (thread : Nat)
  | decrPending
deriving DecidableEq, Repr

/-- One iteration of the worker loop after a generation change: read
`current_work`; if it is the `STOP` sentinel, return (exit the loop);
otherwise invoke it with this thread's index and decrement `pending` with
release semantics.  The second component is whether the loop continues. -/
def workerIteration (thread : Nat) (w : RetrievedWork) : List WEvent × Bool :=
  match w with
  | .stop => ([.readWork], false)
  | .real => ([.readWork, .invokeWork thread, .decrPending], true)

/--
C5 counterexample: the claim asserts that a worker retrieving the terminal
stop marker executes it before exiting ("the stop marker, too, is executed
before exit").  In the code the `ptr::eq(work, STOP)` check comes *before*
`work(thread)`, so the worker that retrieves `STOP` exits without any
invocation: for thread 1 the iteration exits the loop yet contains no
`invokeWork` event.
-/
theorem C5_stop_executed_counterexample :
    (workerIteration 1 .stop).2 = false
  ∧ WEvent.invokeWork 1 ∉ (workerIteration 1 .stop).1 := by
  decide

/--
C5 (amended): in each iteration of the worker loop, after observing a
generation change the worker reads `current_work`; if the retrieved item is
the terminal stop marker the worker exits the loop immediately *without
invoking it*; otherwise it invokes the item with its own thread index,
decrements `pending` with release semantics, and returns to waiting.
-/
theorem C5_worker_iteration (thread : Nat) :
    workerIteration thread .stop = ([.readWork], false)
  ∧ workerIteration thread .real
      = ([.readWork, .invokeWork thread, .decrPending], true) :=
  ⟨rfl, rfl⟩

/-! ### The worker-spawn loop of `scope` (scope.rs lines 59-101)

Rust source:
```
thread::scope(|scope| \x7b
    for thread in 1..parallelism \x7b
        thread::Builder::new()
            .name(format!("fork-join-scope-worker-\x7bthread\x7d"))
            .spawn_scoped(scope, move || state.worker(thread))
            .unwrap();
    \x7d
    ...
    f(Scope \x7b state, _marker: PhantomData \x7d)
\x7d)
```
`spawn_scoped` returns an `io::Result`; `.unwrap()` panics on `Err`,
aborting the whole `scope` call.  `none` models that panic. -/

/-- The spawn loop over a given list of thread ids: each spawn result is
`.unwrap()`ed, so the first failure panics. -/
def spawnList (ts : List Nat) (spawnOk : Nat → Bool) : Option Unit :=
  match ts with
  | [] => some ()
  | t :: rest => if spawnOk t then spawnList rest spawnOk else none

/-- The spawn phase of `scope` with the given parallelism: spawn threads
`1..parallelism`. -/
def spawnWorkers (parallelism : Nat) (spawnOk : Nat → Bool) : Option Unit :=
  spawnList (List.range' 1 (parallelism - 1)) spawnOk

/-- `scope`'s scoped body: run the spawn loop, and only if every spawn
succeeded run the caller's closure (here abstracted to its result). -/
def scopeRun {R : Type} (parallelism : Nat) (spawnOk : Nat → Bool) (body : R) :
    Option R :=
  match spawnWorkers parallelism spawnOk with
  | some _ => some body
  | none => none

/-- A failing id inside the spawn list makes the whole loop panic. -/
lemma spawnList_none (ts : List Nat) (spawnOk : Nat → Bool)
    (h : ∃ t ∈ ts, spawnOk t = false) : spawnList ts spawnOk = none := by
  induction ts with
  | nil => simp at h
  | cons t rest ih =>
    obtain ⟨t', ht', hfail⟩ := h
    rcases List.mem_cons.mp ht' with h1 | h1
    · subst h1
      simp [spawnList, hfail]
    · unfold spawnList
      by_cases hok : spawnOk t
      · rw [if_pos hok]
        exact ih ⟨t', h1, hfail⟩
      · rw [if_neg hok]

/--
C8: if spawning any background worker thread (ids `1..parallelism`) fails,
the entire top-level `scope` call panics — modelled as `none` — rather than
continuing to run the body with fewer workers than requested.
-/
theorem C8_spawn_failure_aborts {R : Type} (parallelism t : Nat)
    (spawnOk : Nat → Bool) (body : R)
    (h1 : 1 ≤ t) (h2 : t < parallelism) (hfail : spawnOk t = false) :
    scopeRun parallelism spawnOk body = none := by
  have hmem : t ∈ List.range' 1 (parallelism - 1) := by
    rw [List.mem_range'_1]
    omega
  unfold scopeRun spawnWorkers
  rw [spawnList_none _ _ ⟨t, hmem, hfail⟩]

/-- Witness for C8: with requested parallelism 3 and the spawn of worker 2
failing, `scope` aborts instead of running the body. -/
theorem C8_spawn_failure_aborts_witness :
    scopeRun 3 (fun t => t ≠ 2) (42 : Nat) = none :=
  C8_spawn_failure_aborts 3 2 (fun t => t ≠ 2) 42 (by decide) (by decide)
    (by decide)

/-! ### Folds (`Scope::fold_static`, iter.rs lines 39-60, and
`Scope::fold_dynamic`, iter.rs lines 99-120)

Both folds begin with
```
accum.clear();
accum.resize_with(self.state.workers + 1, Default::default);
```
and then iterate (statically or dynamically) with each participant writing
only its own accumulator slot.  The per-slot denotations below rely on
`broadcast` running the closure exactly once per participant (C1) and on the
partitioning facts proved above. -/

/-- `Vec::clear`. -/
def vecClear {A : Type} (_v : List A) : List A := []

/-- `Vec::resize_with(n, Default::default)`: truncate to `n`, or grow to `n`
by appending freshly produced default values. -/
def vecResizeWith {A : Type} (v : List A) (n : Nat) (d : A) : List A :=
  v.take n ++ List.replicate (n - v.length) d

/-- The subslice `&work[s..e]` a participant receives. -/
def subslice {T : Type} (work : List T) (s e : Nat) : List T :=
  (work.drop s).take (e - s)

/-- `fold_static`: reset the accumulator vector to `wc + 1` default slots,
then participant `i` folds its `iter_static` subslice of `work` into its own
slot with the reducer `f`. -/
def fold_static {T A : Type} (wc : Nat) (work : List T) (accum : List A)
    (d : A) (f : A → List T → A) : List A :=
  let accum1 := vecResizeWith (vecClear accum) (wc + 1) d
  accum1.mapIdx (fun i a =>
    f a (subslice work (staticStart 0 work.length wc i)
      (staticEnd 0 work.length wc i)))

/-- One dynamic-fold element step: the pair `(t, idx)` handed to the closure
makes participant `t` fold `work[idx]` into slot `t`. -/
def applyProcessed {T A : Type} (work : List T) (g : A → T → A)
    (slots : List A) (p : Nat × Nat) : List A :=
  match slots[p.1]?, work[p.2]? with
  | some a, some x => slots.set p.1 (g a x)
  | _, _ => slots

/-- `fold_dynamic`: reset the accumulator vector to `wc + 1` default slots,
then apply the `(thread, index)` pairs of an `iter_dynamic` execution in
processing order (the `DState.processed` list is most-recent-first). -/
def fold_dynamic {T A : Type} (wc : Nat) (work : List T) (accum : List A)
    (d : A) (g : A → T → A) (processed : List (Nat × Nat)) : List A :=
  processed.reverse.foldl (applyProcessed work g)
    (vecResizeWith (vecClear accum) (wc + 1) d)

/-- Clearing then resize-with-default yields exactly `n` default slots,
whatever the previous contents. -/
lemma vecResizeWith_vecClear {A : Type} (v : List A) (n : Nat) (d : A) :
    vecResizeWith (vecClear v) n d = List.replicate n d := by
  simp [vecClear, vecResizeWith]

/-- `mapIdx` over a replicated list is a map over the indices. -/
lemma mapIdx_replicate {A B : Type} (f : Nat → A → B) (n : Nat) (d : A) :
    List.mapIdx f (List.replicate n d) = (List.range n).map (fun i => f i d) := by
  induction n generalizing f with
  | zero => rfl
  | succ m ih =>
    rw [List.replicate_succ, List.mapIdx_cons, List.range_succ_eq_map]
    rw [ih (fun i => f (i + 1))]
    simp [List.map_map, Function.comp]

/-- `applyProcessed` never changes the number of slots. -/
lemma applyProcessed_length {T A : Type} (work : List T) (g : A → T → A)
    (slots : List A) (p : Nat × Nat) :
    (applyProcessed work g slots p).length = slots.length := by
  unfold applyProcessed
  cases slots[p.1]? with
  | none => rfl
  | some a =>
    cases work[p.2]? with
    | none => rfl
    | some x => simp

/-- Folding any pair list over `applyProcessed` preserves the slot count. -/
lemma foldl_applyProcessed_length {T A : Type} (work : List T) (g : A → T → A)
    (l : List (Nat × Nat)) (slots : List A) :
    (l.foldl (applyProcessed work g) slots).length = slots.length := by
  induction l generalizing slots with
  | nil => rfl
  | cons p rest ih =>
    rw [List.foldl_cons, ih, applyProcessed_length]

/--
C7: at the start of every `fold_static` and `fold_dynamic` call the
caller-owned accumulator vector is cleared and refilled with exactly
`wc + 1` default-initialized slots, discarding whatever contents and length
it had before, independently of the input sequence's length.
-/
theorem C7_fold_accumulator_reset {T A : Type} (wc : Nat) (work : List T)
    (accum : List A) (d : A) (f : A → List T → A) (g : A → T → A) :
    vecResizeWith (vecClear accum) (wc + 1) d = List.replicate (wc + 1) d
  ∧ (fold_static wc work accum d f).length = wc + 1
  ∧ fold_static wc work accum d f = fold_static wc work [] d f
  ∧ (∀ processed : List (Nat × Nat),
      (fold_dynamic wc work accum d g processed).length = wc + 1
    ∧ fold_dynamic wc work accum d g processed
        = fold_dynamic wc work [] d g processed) := by
  refine ⟨vecResizeWith_vecClear accum (wc + 1) d, ?_, ?_, ?_⟩
  · unfold fold_static
    rw [vecResizeWith_vecClear, mapIdx_replicate]
    simp
  · unfold fold_static
    rw [vecResizeWith_vecClear, vecResizeWith_vecClear]
  · intro processed
    constructor
    · unfold fold_dynamic
      rw [vecResizeWith_vecClear, foldl_applyProcessed_length]
      simp
    · unfold fold_dynamic
      rw [vecResizeWith_vecClear, vecResizeWith_vecClear]

/-- Witness for C7: previous contents `[7, 7, 7, 7, 7]` over an input of
length 3 with `wc = 1` are discarded: the reset yields two zero slots. -/
theorem C7_fold_accumulator_reset_witness :
    vecResizeWith (vecClear [7, 7, 7, 7, 7]) (1 + 1) (0 : Nat)
      = List.replicate (1 + 1) 0
  ∧ (fold_static 1 [5, 6, 7] [7, 7, 7, 7, 7] (0 : Nat)
      (fun a l => l.foldl (· + ·) a)).length = 1 + 1 :=
  ⟨(C7_fold_accumulator_reset 1 ([5, 6, 7] : List Nat) [7, 7, 7, 7, 7] 0
      (fun a l => l.foldl (· + ·) a) (· + ·)).1,
   (C7_fold_accumulator_reset 1 ([5, 6, 7] : List Nat) [7, 7, 7, 7, 7] 0
      (fun a l => l.foldl (· + ·) a) (· + ·)).2.1⟩

/-- The accumulator's previous contents never influence `fold_static`. -/
lemma fold_static_accum {T A : Type} (wc : Nat) (work : List T)
    (accum : List A) (d : A) (f : A → List T → A) :
    fold_static wc work accum d f = fold_static wc work [] d f := by
  unfold fold_static
  rw [vecResizeWith_vecClear, vecResizeWith_vecClear]

/-- The accumulator's previous contents never influence `fold_dynamic`. -/
lemma fold_dynamic_accum {T A : Type} (wc : Nat) (work : List T)
    (accum : List A) (d : A) (g : A → T → A) (processed : List (Nat × Nat)) :
    fold_dynamic wc work accum d g processed
      = fold_dynamic wc work [] d g processed := by
  unfold fold_dynamic
  rw [vecResizeWith_vecClear, vecResizeWith_vecClear]

/-- Summing a list after a point update. -/
lemma sum_set (l : List Nat) (i a b : Nat) (h : l[i]? = some a) :
    (l.set i b).sum + a = l.sum + b := by
  have h2 := congrArg Multiset.sum (multiset_set l i b a h)
  simpa [Multiset.sum_add, Multiset.sum_coe, Multiset.sum_singleton] using h2

/-- With the summing reducer, every applied pair adds its element of `work`
to the total over all slots. -/
lemma foldl_applyProcessed_sum (work : List Nat) (l : List (Nat × Nat))
    (slots : List Nat)
    (hl : ∀ p ∈ l, p.1 < slots.length ∧ p.2 < work.length) :
    (l.foldl (applyProcessed work (· + ·)) slots).sum
      = slots.sum + (l.map (fun p => work.getD p.2 0)).sum := by
  induction l generalizing slots with
  | nil => simp
  | cons p rest ih =>
    have hp := hl p (List.mem_cons_self p rest)
    have hslot : slots[p.1]? = some (slots.get ⟨p.1, hp.1⟩) :=
      List.getElem?_eq_getElem hp.1
    have hwork : work[p.2]? = some (work.get ⟨p.2, hp.2⟩) :=
      List.getElem?_eq_getElem hp.2
    have happ : applyProcessed work (· + ·) slots p
        = slots.set p.1 (slots.get ⟨p.1, hp.1⟩ + work.get ⟨p.2, hp.2⟩) := by
      unfold applyProcessed
      rw [hslot, hwork]
    rw [List.foldl_cons, happ]
    rw [ih _ (fun q hq => by
      have hq2 := hl q (List.mem_cons_of_mem p hq)
      rwa [List.length_set])]
    have hs := sum_set slots p.1 (slots.get ⟨p.1, hp.1⟩)
      (slots.get ⟨p.1, hp.1⟩ + work.get ⟨p.2, hp.2⟩) hslot
    have hg : work.getD p.2 0 = work.get ⟨p.2, hp.2⟩ := by
      rw [List.getD_eq_getElem?_getD, hwork]
      rfl
    simp only [List.map_cons, List.sum_cons]
    omega

/-- In any completed `iter_dynamic` execution over `[0, n)` whose inputs
satisfy the no-overflow side conditions, the dynamic-fold slots of the
summing reducer add up to the sum of the whole range. -/
lemma fold_dynamic_sum_range (wc n : Nat) (accum : List Nat) (s : DState)
    (hP1 : wc + 1 ≤ usizeMax) (hP2 : n + wc + 1 ≤ usizeMax)
    (h : Relation.ReflTransGen (DStep n) (dInit 0 wc) s) (hdone : dDone s) :
    (fold_dynamic wc (List.range n) accum 0 (· + ·) s.processed).sum
      = (List.range' 0 n).sum := by
  have hP1' : 0 + wc + 1 ≤ usizeMax := by omega
  have inv := DInv_reach hP1' hP2 h
  have hcov := dyn_coverage hP1' hP2 h hdone
  have hb : ∀ p ∈ s.processed.reverse,
      p.1 < (vecResizeWith (vecClear accum) (wc + 1) (0 : Nat)).length
    ∧ p.2 < (List.range n).length := by
    intro p hp
    have hp2 := inv.proc_lt p (List.mem_reverse.mp hp)
    constructor
    · rw [vecResizeWith_vecClear, List.length_replicate]
      exact hp2.2
    · rw [List.length_range]
      exact hp2.1
  unfold fold_dynamic
  rw [foldl_applyProcessed_sum _ _ _ hb]
  rw [vecResizeWith_vecClear]
  have h0 : (List.replicate (wc + 1) (0 : Nat)).sum = 0 := by simp
  rw [h0, Nat.zero_add]
  rw [List.map_reverse, List.sum_reverse]
  have hmap : s.processed.map (fun p => (List.range n).getD p.2 0)
      = s.processed.map Prod.snd := by
    apply List.map_congr_left
    intro p hp
    have hp2 := (inv.proc_lt p hp).1
    rw [List.getD_eq_getElem?_getD, List.getElem?_range hp2]
    rfl
  rw [hmap]
  unfold procMS at hcov
  have hsum := congrArg Multiset.sum hcov
  rw [Multiset.sum_coe, Multiset.sum_coe] at hsum
  simpa using hsum

/--
C6: for worker counts 1, 2 and 10, `fold_static` (resp. `fold_dynamic`)
over the sequence `0..1000` with a reducer adding each element into the
thread's accumulator slot, followed by the caller summing all slots, yields
exactly 499500 — for the dynamic variant in every completed execution,
whatever the interleaving.
-/
theorem C6_fold_sum_499500 :
    (∀ accum : List Nat,
        (fold_static 1 (List.range 1000) accum 0
          (fun a l => l.foldl (· + ·) a)).sum = 499500
      ∧ (fold_static 2 (List.range 1000) accum 0
          (fun a l => l.foldl (· + ·) a)).sum = 499500
      ∧ (fold_static 10 (List.range 1000) accum 0
          (fun a l => l.foldl (· + ·) a)).sum = 499500)
  ∧ (∀ wc, wc = 1 ∨ wc = 2 ∨ wc = 10 → ∀ (accum : List Nat) (s : DState),
        Relation.ReflTransGen (DStep 1000) (dInit 0 wc) s → dDone s →
        (fold_dynamic wc (List.range 1000) accum 0 (· + ·) s.processed).sum
          = 499500) := by
  constructor
  · intro accum
    refine ⟨?_, ?_, ?_⟩ <;> rw [fold_static_accum] <;> decide
  · intro wc hwc accum s h hdone
    have hmax : (1011 : Nat) ≤ usizeMax := by norm_num [usizeMax, usizeMod]
    have hwc10 : wc ≤ 10 := by rcases hwc with rfl | rfl | rfl <;> omega
    rw [fold_dynamic_sum_range wc 1000 accum s (by omega) (by omega) h hdone]
    decide

/-- Termination weight of one participant: 2 while it may still process,
1 while its held index only remains to be rejected, 0 once it has exited. -/
def dWeight (endd : Nat) : DThread → Nat
  | .run idx => if idx < endd then 2 else 1
  | .fin _ => 0

/-- Termination measure of the dynamic protocol. -/
def dMeasure (endd : Nat) (s : DState) : Nat :=
  (s.threads.map (dWeight endd)).sum + (endd - s.counter)

/-- The weight of a running participant unfolds to its `if` form. -/
lemma dWeight_run (endd i : Nat) :
    dWeight endd (.run i) = if i < endd then 2 else 1 := rfl

/-- The weight of an exited participant is zero. -/
lemma dWeight_fin (endd i : Nat) : dWeight endd (.fin i) = 0 := rfl

/-- Any non-terminal invariant-satisfying state of a run with the
no-overflow side condition has a step that decreases the measure. -/
lemma dyn_progress (start endd wc : Nat) {s : DState}
    (inv : DInv start endd wc s) (hP2 : endd + wc + 1 ≤ usizeMax) :
    dDone s ∨ ∃ s', DStep endd s s' ∧ dMeasure endd s' < dMeasure endd s := by
  by_cases hd : dDone s
  · exact Or.inl hd
  · right
    unfold dDone at hd
    push_neg at hd
    obtain ⟨th, hmem, hfin⟩ := hd
    obtain ⟨idx, hidx⟩ : ∃ idx, th = DThread.run idx := by
      cases th with
      | run i => exact ⟨i, rfl⟩
      | fin i => exact absurd rfl hfin
    subst hidx
    obtain ⟨t, ht⟩ : ∃ t : Nat, s.threads[t]? = some (DThread.run idx) := by
      obtain ⟨t, hlt, hv⟩ := List.getElem_of_mem hmem
      refine ⟨t, ?_⟩
      rw [List.getElem?_eq_getElem hlt, hv]
    have htm : (s.threads.map (dWeight endd))[t]?
        = some (dWeight endd (.run idx)) := by
      rw [List.getElem?_map, ht]
      rfl
    by_cases hlt : idx < endd
    · refine ⟨_, DStep.process s t idx ht hlt, ?_⟩
      unfold dMeasure
      have hle := process_counter_lt start endd wc inv ht hlt
      have hmod : (s.counter + 1) % usizeMod = s.counter + 1 := by
        simp only [usizeMax] at hP2
        have hM : 0 < usizeMod := by norm_num [usizeMod]
        exact Nat.mod_eq_of_lt (by omega)
      have hms : (s.threads.set t (DThread.run s.counter)).map (dWeight endd)
          = (s.threads.map (dWeight endd)).set t (dWeight endd (.run s.counter)) :=
        List.map_set ..
      have hsum := sum_set (s.threads.map (dWeight endd)) t
        (dWeight endd (.run idx)) (dWeight endd (.run s.counter)) htm
      have hw1 : dWeight endd (.run idx) = 2 := by
        rw [dWeight_run, if_pos hlt]
      by_cases hc : s.counter < endd
      · have hw2 : dWeight endd (.run s.counter) = 2 := by
          rw [dWeight_run, if_pos hc]
        dsimp only
        rw [hmod, hms, hw2]
        rw [hw1, hw2] at hsum
        omega
      · have hw2 : dWeight endd (.run s.counter) = 1 := by
          rw [dWeight_run, if_neg hc]
        dsimp only
        rw [hmod, hms, hw2]
        rw [hw1, hw2] at hsum
        omega
    · refine ⟨_, DStep.finish s t idx ht (by omega), ?_⟩
      unfold dMeasure
      have hms : (s.threads.set t (DThread.fin idx)).map (dWeight endd)
          = (s.threads.map (dWeight endd)).set t (dWeight endd (.fin idx)) :=
        List.map_set ..
      have hsum := sum_set (s.threads.map (dWeight endd)) t
        (dWeight endd (.run idx)) (dWeight endd (.fin idx)) htm
      have hw1 : dWeight endd (.run idx) = 1 := by
        rw [dWeight_run, if_neg hlt]
      have hw2 : dWeight endd (.fin idx) = 0 := dWeight_fin endd idx
      dsimp only
      rw [hms, hw2]
      rw [hw1, hw2] at hsum
      omega

/-- From every invariant-satisfying state of a run with the no-overflow
side condition, the dynamic protocol can run to completion. -/
lemma dyn_terminates (start endd wc : Nat)
    (hP2 : endd + wc + 1 ≤ usizeMax) : ∀ (n : Nat) (s : DState),
    DInv start endd wc s → dMeasure endd s ≤ n →
    ∃ s', Relation.ReflTransGen (DStep endd) s s' ∧ dDone s' := by
  intro n
  induction n with
  | zero =>
    intro s hinv hs
    rcases dyn_progress start endd wc hinv hP2 with hd | ⟨s', _, hmlt⟩
    · exact ⟨s, Relation.ReflTransGen.refl, hd⟩
    · omega
  | succ m ih =>
    intro s hinv hs
    rcases dyn_progress start endd wc hinv hP2 with hd | ⟨s', hstep, hmlt⟩
    · exact ⟨s, Relation.ReflTransGen.refl, hd⟩
    · obtain ⟨s'', h1, h2⟩ := ih s' (DInv_step hP2 hinv hstep) (by omega)
      exact ⟨s'', Relation.ReflTransGen.head hstep h1, h2⟩

/-- Witness for C6: a completed execution over `0..1000` with `wc = 1`
exists, and its dynamic-fold slot sums total 499500. -/
theorem C6_fold_sum_499500_witness :
    ∃ s : DState, Relation.ReflTransGen (DStep 1000) (dInit 0 1) s ∧ dDone s
      ∧ (fold_dynamic 1 (List.range 1000) [] 0 (· + ·) s.processed).sum
          = 499500 := by
  have hP1 : 0 + 1 + 1 ≤ usizeMax := by norm_num [usizeMax, usizeMod]
  have hP2 : 1000 + 1 + 1 ≤ usizeMax := by norm_num [usizeMax, usizeMod]
  obtain ⟨s, h1, h2⟩ :=
    dyn_terminates 0 1000 1 hP2 (dMeasure 1000 (dInit 0 1)) (dInit 0 1)
      (DInv_init 0 1000 1 hP1) le_rfl
  exact ⟨s, h1, h2, C6_fold_sum_499500.2 1 (Or.inl rfl) [] s h1 h2⟩

end ForkJoin
